import Mathlib

set_option maxRecDepth 8000

/-!
Shallow embedding of `src/native/jpn_to_phoneme_ffi.cpp` (Japanese → IPA
phoneme converter).

Byte strings are modelled as `List Nat` (each element a byte value
0..255) and decoded text as `List Nat` of Unicode code points, matching
the pre-decoding pass the C++ performs before every algorithm.  Reads of
a `std::string` one or two positions past a truncated multi-byte
sequence (which yield NUL in the source) are modelled as 0.
-/

/-- Read element `i` of `cs`, 0 when out of range. -/
def nth (cs : List Nat) (i : Nat) : Nat := cs.getD i 0

/-- ASCII whitespace test used throughout the source
(`' '`, `'\t'`, `'\n'`, `'\r'`). -/
def isWs (c : Nat) : Bool := c == 0x20 || c == 0x09 || c == 0x0A || c == 0x0D

/-- Kana test `is_kana_cp`: hiragana U+3040–U+309F or katakana U+30A0–U+30FF. -/
def isKana (c : Nat) : Bool :=
  (decide (0x3040 ≤ c) && decide (c ≤ 0x309F)) ||
  (decide (0x30A0 ≤ c) && decide (c ≤ 0x30FF))

/-- CJK kanji test from the backward scan of `parse_furigana_segments`
(`check_cp >= 0x4E00 || (check_cp >= 0x3400 && check_cp <= 0x9FFF)`). -/
def isCJK (c : Nat) : Bool :=
  decide (0x4E00 ≤ c) || (decide (0x3400 ≤ c) && decide (c ≤ 0x9FFF))

/-- Japanese punctuation that always stops the backward surface scan:
`」 、 。 ！ ？ ） ］`. -/
def isJPunct (c : Nat) : Bool :=
  c == 0x300D || c == 0x3001 || c == 0x3002 || c == 0xFF01 ||
  c == 0xFF1F || c == 0xFF09 || c == 0xFF3D

/-- ASCII punctuation/whitespace that stops the backward surface scan
(the `cp < 0x80 && (...)` disjunction in the source). -/
def isAsciiStop (c : Nat) : Bool :=
  decide (c < 0x80) &&
  (c == 0x2E || c == 0x2C || c == 0x21 || c == 0x3F || c == 0x3B ||
   c == 0x3A || c == 0x28 || c == 0x29 || c == 0x5B || c == 0x5D ||
   c == 0x7B || c == 0x7D || c == 0x22 || c == 0x27 || c == 0x2D ||
   c == 0x2F || c == 0x5C || c == 0x7C || c == 0x20 || c == 0x09 ||
   c == 0x0A || c == 0x0D)

/-- The decoder `get_code_point` iterated over a whole byte string: the permissive
UTF-8 pre-decoder.  One-, two-, three- and four-byte sequences are
accepted; any other leading byte is passed through as a pseudo-scalar
equal to the byte value with a one-byte advance.  Bytes read past the
end of a truncated sequence are 0 (NUL), after which the main loop's
`byte_pos < length` test ends the decode. -/
def decodeUtf8 : List Nat → List Nat
  | [] => []
  | c :: rest =>
    if c < 0x80 then c :: decodeUtf8 rest
    else if c &&& 0xE0 == 0xC0 then
      match rest with
      | [] => [(c &&& 0x1F) <<< 6]
      | b1 :: rest' => (((c &&& 0x1F) <<< 6) ||| (b1 &&& 0x3F)) :: decodeUtf8 rest'
    else if c &&& 0xF0 == 0xE0 then
      match rest with
      | [] => [(c &&& 0x0F) <<< 12]
      | [b1] => [((c &&& 0x0F) <<< 12) ||| ((b1 &&& 0x3F) <<< 6)]
      | b1 :: b2 :: rest' =>
        (((c &&& 0x0F) <<< 12) ||| ((b1 &&& 0x3F) <<< 6) ||| (b2 &&& 0x3F)) ::
          decodeUtf8 rest'
    else if c &&& 0xF8 == 0xF0 then
      match rest with
      | [] => [(c &&& 0x07) <<< 18]
      | [b1] => [((c &&& 0x07) <<< 18) ||| ((b1 &&& 0x3F) <<< 12)]
      | [b1, b2] => [((c &&& 0x07) <<< 18) ||| ((b1 &&& 0x3F) <<< 12) ||| ((b2 &&& 0x3F) <<< 6)]
      | b1 :: b2 :: b3 :: rest' =>
        (((c &&& 0x07) <<< 18) ||| ((b1 &&& 0x3F) <<< 12) |||
         ((b2 &&& 0x3F) <<< 6) ||| (b3 &&& 0x3F)) :: decodeUtf8 rest'
    else c :: decodeUtf8 rest

/-- The re-encoding of a single code point back to UTF-8 performed by
`PhonemeConverter::convert` for unmatched characters. -/
def encodeUtf8Char (cp : Nat) : List Nat :=
  if cp < 0x80 then [cp]
  else if cp < 0x800 then [0xC0 ||| (cp >>> 6), 0x80 ||| (cp &&& 0x3F)]
  else if cp < 0x10000 then
    [0xE0 ||| (cp >>> 12), 0x80 ||| ((cp >>> 6) &&& 0x3F), 0x80 ||| (cp &&& 0x3F)]
  else
    [0xF0 ||| (cp >>> 18), 0x80 ||| ((cp >>> 12) &&& 0x3F),
     0x80 ||| ((cp >>> 6) &&& 0x3F), 0x80 ||| (cp &&& 0x3F)]

/-- Byte string obtained by re-encoding a whole code-point list. -/
def encodeUtf8 (cps : List Nat) : List Nat := (cps.map encodeUtf8Char).flatten

/-- Node type `TrieNode`: children keyed by code point, optional string value
(`phoneme`).  Values are byte strings; the word trie uses `some []`
(the empty-string marker) for end of word. -/
inductive Trie where
  | node : Option (List Nat) → List (Nat × Trie) → Trie
deriving Repr

/-- Equality with `none` is decidable for `Option Trie` without
deciding trie equality. -/
instance (o : Option Trie) : Decidable (o = none) :=
  decidable_of_iff (o.isNone = true) Option.isNone_iff_eq_none

/-- The node's optional value (`phoneme` member). -/
def Trie.value : Trie → Option (List Nat)
  | .node v _ => v

/-- Association-list lookup among a node's children
(`children.find(code_point)`; keys are unique, order irrelevant). -/
def lookupChild (c : Nat) : List (Nat × Trie) → Option Trie
  | [] => none
  | p :: rest => if p.1 == c then some p.2 else lookupChild c rest

/-- Child of a node for a given code point. -/
def Trie.child : Trie → Nat → Option Trie
  | .node _ cl, c => lookupChild c cl

/-- The walk loop shared by `PhonemeConverter::convert`,
`WordSegmenter::segment_from_segments` and the compound detection:
advance through `cs` while children exist, keeping in `best` the pair
(`match_length`, `matched_phoneme`) of the deepest node seen that
carries a value (`k` is the number of steps already taken). -/
def walkAux (t : Trie) (best : Option (Nat × List Nat)) (k : Nat) :
    List Nat → Option (Nat × List Nat)
  | [] => best
  | c :: rest =>
    match t.child c with
    | none => best
    | some t' =>
      match t'.value with
      | some v => walkAux t' (some (k + 1, v)) (k + 1) rest
      | none => walkAux t' best (k + 1) rest

/-- The walk started from the root with `match_length = 0` and no value. -/
def walkLongest (t : Trie) (cs : List Nat) : Option (Nat × List Nat) :=
  walkAux t none 0 cs

/-- Field `match_length` as the source keeps it: 0 when no valued prefix. -/
def suffixMatchLen (t : Trie) (cs : List Nat) : Nat :=
  match walkLongest t cs with
  | some p => p.1
  | none => 0

/-- Recursive form of the longest valued prefix (proved equal to
`walkLongest`): the deepest reachable node with a value wins. -/
def bestMatch (t : Trie) : List Nat → Option (Nat × List Nat)
  | [] => none
  | c :: rest =>
    match t.child c with
    | none => none
    | some t' =>
      match bestMatch t' rest with
      | some p => some (p.1 + 1, p.2)
      | none => Option.map (fun v => (1, v)) t'.value

/-- Value stored at the node reached by descending along `key`
(`none` when the path leaves the trie or the end node has no value). -/
def pathValue (t : Trie) : List Nat → Option (List Nat)
  | [] => t.value
  | c :: rest =>
    match t.child c with
    | none => none
    | some t' => pathValue t' rest

/-- The first loop of the compound detection in
`parse_furigana_segments`: walk through the surface characters but
KEEP the last reached node when a child is missing (`break` leaves
`current` non-null), continuing the suffix walk from there. -/
def walkNodePartial (t : Trie) : List Nat → Trie
  | [] => t
  | c :: rest =>
    match t.child c with
    | none => t
    | some t' => walkNodePartial t' rest

/-- Main loop of `PhonemeConverter::convert` over pre-decoded code
points: longest valued prefix → append its value and advance by its
length; otherwise re-encode one code point and advance by one.  `fuel`
bounds the iteration count (each step consumes at least one code
point, so `cs.length + 1` always suffices). -/
def convLoop (t : Trie) : Nat → List Nat → List Nat
  | 0, _ => []
  | _ + 1, [] => []
  | fuel + 1, c :: rest =>
    match walkLongest t (c :: rest) with
    | some p => p.2 ++ convLoop t fuel ((c :: rest).drop p.1)
    | none => encodeUtf8Char c ++ convLoop t fuel rest

/-- Function `PhonemeConverter::convert` on an already decoded code-point list. -/
def convertCps (t : Trie) (cs : List Nat) : List Nat :=
  convLoop t (cs.length + 1) cs

/-- Function `PhonemeConverter::convert` on a UTF-8 byte string. -/
def convertBytes (t : Trie) (bytes : List Nat) : List Nat :=
  convertCps t (decodeUtf8 bytes)

/-- Segment type `TextSegment`: plain text or a furigana hint (surface, reading),
both as code-point lists.  (`original_pos` is metadata unused by every
consumer and is omitted.) -/
inductive Segment where
  | plain : List Nat → Segment
  | hint : List Nat → List Nat → Segment
deriving Repr, DecidableEq

/-- Leading/trailing ASCII-whitespace trim applied to hint readings. -/
def trimWs (cs : List Nat) : List Nat :=
  ((cs.dropWhile isWs).reverse.dropWhile isWs).reverse

/-- Index of the first occurrence of `x` (the forward bracket searches). -/
def findCp (x : Nat) : List Nat → Option Nat
  | [] => none
  | c :: rest => if c == x then some 0 else Option.map (· + 1) (findCp x rest)

/-- First backward pass before an opening bracket at index `o`:
`while (last_kanji_pos > pos && is_kana(chars[last_kanji_pos-1])) last_kanji_pos--`
(positions are relative to the scan window, whose start is 0). -/
def stripKanaBack (cs : List Nat) : Nat → Nat
  | 0 => 0
  | k + 1 => if isKana (nth cs k) then stripKanaBack cs k else k + 1

/-- Value of `last_kanji_pos` after the trailing
`if (last_kanji_pos > pos) last_kanji_pos--`. -/
def lastKanji (cs : List Nat) (o : Nat) : Nat :=
  match stripKanaBack cs o with
  | 0 => 0
  | k + 1 => k

/-- Test `has_kanji_before`: some position strictly before `sp` holds a
non-kana CJK scalar. -/
def hasKanjiBefore (cs : List Nat) (sp : Nat) : Bool :=
  (List.range sp).any (fun j => !isKana (nth cs j) && isCJK (nth cs j))

/-- Second backward pass computing `word_start`: from `search_pos`
scan down; punctuation and non-sandwiched kana stop the scan
(exclusive), every other character is included. -/
def scanBack (cs : List Nat) : Nat → Nat → Nat
  | 0, ws => ws
  | sp + 1, _ =>
    if isJPunct (nth cs sp) then sp + 1
    else if isAsciiStop (nth cs sp) then sp + 1
    else if isKana (nth cs sp) && !hasKanjiBefore cs sp then sp + 1
    else scanBack cs sp sp

/-- Scan loop of `parse_furigana_segments`, operating on the suffix of
the decoded input that starts at the current scan position (all C++
indices are relative to `pos`, which every comparison is bounded below
by).  `fuel` bounds the number of hints processed; each iteration
consumes at least two code points, so `cs.length + 1` suffices. -/
def parseLoop (wt : Option Trie) : Nat → List Nat → List Segment
  | 0, _ => []
  | fuel + 1, cs =>
    match findCp 0x300C cs with
    | none => if cs.isEmpty then [] else [Segment.plain cs]
    | some o =>
      match findCp 0x300D (cs.drop (o + 1)) with
      | none => [Segment.plain cs]
      | some crel =>
        let cAbs := o + 1 + crel
        let lk := lastKanji cs o
        let ws := scanBack cs lk lk
        let leadSegs : List Segment :=
          if 0 < ws then [Segment.plain (cs.take ws)] else []
        let surface := (cs.drop ws).take (o - ws)
        let reading := trimWs ((cs.drop (o + 1)).take crel)
        if reading.isEmpty then
          leadSegs ++ parseLoop wt fuel (cs.drop (cAbs + 1))
        else
          match wt with
          | some t =>
            if cAbs + 1 < cs.length then
              let m := suffixMatchLen (walkNodePartial t surface) (cs.drop (cAbs + 1))
              if 0 < m then
                leadSegs ++ Segment.plain (reading ++ (cs.drop (cAbs + 1)).take m)
                  :: parseLoop wt fuel (cs.drop (cAbs + 1 + m))
              else
                leadSegs ++ Segment.hint surface reading
                  :: parseLoop wt fuel (cs.drop (cAbs + 1))
            else
              leadSegs ++ Segment.hint surface reading
                :: parseLoop wt fuel (cs.drop (cAbs + 1))
          | none =>
            leadSegs ++ Segment.hint surface reading
              :: parseLoop wt fuel (cs.drop (cAbs + 1))

/-- Function `parse_furigana_segments` on decoded code points; `wt` is the
optional word trie used for compound detection. -/
def parseFurigana (cs : List Nat) (wt : Option Trie) : List Segment :=
  parseLoop wt (cs.length + 1) cs

/-- Grammar-run length: consecutive code points at which the WORD trie
has no valued prefix, stopping at whitespace (the lookahead loop of
`segment_from_segments`). -/
def grammarRun (wt : Trie) : List Nat → Nat
  | [] => 0
  | c :: rest =>
    if isWs c then 0
    else if 0 < suffixMatchLen wt (c :: rest) then 0
    else grammarRun wt rest + 1

/-- Per-`Plain`-segment loop of `WordSegmenter::segment_from_segments`:
skip whitespace; longest word-trie match, falling back to the phoneme
trie when the word trie found nothing; otherwise emit a grammar run.
The final `[]` branch is unreachable (a grammar run at an unmatched
non-whitespace character has length ≥ 1); it stands for the C++ loop
never terminating there. -/
def segPlainLoop (wt : Trie) (pt : Option Trie) : Nat → List Nat → List (List Nat)
  | 0, _ => []
  | _ + 1, [] => []
  | fuel + 1, c :: rest =>
    if isWs c then segPlainLoop wt pt fuel rest
    else
      let m1 := suffixMatchLen wt (c :: rest)
      let m := if m1 == 0 then
          match pt with
          | some p => suffixMatchLen p (c :: rest)
          | none => 0
        else m1
      if 0 < m then
        (c :: rest).take m :: segPlainLoop wt pt fuel ((c :: rest).drop m)
      else
        let g := grammarRun wt (c :: rest)
        if 0 < g then
          (c :: rest).take g :: segPlainLoop wt pt fuel ((c :: rest).drop g)
        else []

/-- Word segmentation of one plain text run. -/
def segmentPlain (wt : Trie) (pt : Option Trie) (cs : List Nat) : List (List Nat) :=
  segPlainLoop wt pt (cs.length + 1) cs

/-- Function `WordSegmenter::segment_from_segments`: hint segments contribute
their reading as one atomic token; plain segments are word-segmented. -/
def segmentFromSegments (wt : Trie) (pt : Option Trie) (segs : List Segment) :
    List (List Nat) :=
  segs.flatMap fun s =>
    match s with
    | Segment.hint _ r => [r]
    | Segment.plain t => segmentPlain wt pt t

/-- Per-token emission of `SegmentedConversion::convert_with_segmentation`:
a token that is exactly the single code point は (U+306F) becomes the
fixed bytes "wa", every other token goes through the phoneme converter. -/
def tokenPhoneme (pt : Trie) (w : List Nat) : List Nat :=
  if w = [0x306F] then [0x77, 0x61] else convertCps pt w

/-- Single ASCII space between consecutive tokens (`if (i > 0) result += " "`). -/
def joinSpace (ws : List (List Nat)) : List Nat := List.intercalate [0x20] ws

/-- The token list `convert_with_segmentation` produces: furigana
parsing with the word trie, then segmentation with phoneme-trie
fallback. -/
def wordsWithSegmentation (pt wt : Trie) (cs : List Nat) : List (List Nat) :=
  segmentFromSegments wt (some pt) (parseFurigana cs (some wt))

/-- Function `SegmentedConversion::convert_with_segmentation` on decoded code
points: tokens → per-token phonemes → joined with single spaces. -/
def convertWithSegmentationCps (pt wt : Trie) (cs : List Nat) : List Nat :=
  joinSpace ((wordsWithSegmentation pt wt cs).map (tokenPhoneme pt))

/-- The conversion a `jpn_phoneme_convert` call performs before
touching the output buffer: segmented when both the flag and a
segmenter are present, plain otherwise. -/
def conversionResult (t : Trie) (wt : Option Trie) (useSeg : Bool)
    (textBytes : List Nat) : List Nat :=
  match wt, useSeg with
  | some w, true => convertWithSegmentationCps t w (decodeUtf8 textBytes)
  | _, _ => convertBytes t textBytes

/-- Entry point `jpn_phoneme_convert`: returns (return value, output buffer after
the call, last-error string).  The buffer is a byte list whose length
is the caller's `buffer_size`.  On success the result is copied,
followed by a NUL (the `result_len < buffer_size` guard always holds
there, since `result_len >= buffer_size` already failed); bytes past
the NUL keep their prior contents. -/
def jpnPhonemeConvert (conv : Option Trie) (wt : Option Trie) (useSeg : Bool)
    (textBytes : List Nat) (buf : List Nat) : Int × List Nat × String :=
  match conv with
  | none => (-1, buf, "Converter not initialized. Call jpn_phoneme_init() first.")
  | some t =>
    let res := conversionResult t wt useSeg textBytes
    if buf.length ≤ res.length then (-1, buf, "Output buffer too small")
    else ((res.length : Int), res ++ 0 :: buf.drop (res.length + 1), "")

/-- Entry point `jpn_phoneme_get_entry_count`: the argument is the `entry_count`
field of the live `PhonemeConverter` (the number of entries actually
inserted during load), which the function ignores in favour of a
hard-coded placeholder (source comment: "For now, return a
placeholder."). -/
def jpnPhonemeGetEntryCount : Option Nat → Int
  | none => -1
  | some _ => 240000

/-- Entry point `jpn_phoneme_get_word_count`: same placeholder pattern for the
`WordSegmenter`'s `word_count` field. -/
def jpnPhonemeGetWordCount : Option Nat → Int
  | none => -1
  | some _ => 200000

/-- Varint reader of `try_load_binary_format` (7-bit little-endian
groups, continuation bit 0x80), accumulating into a `uint32_t`
(modelled by the final 32-bit mask).  Reads past the end of the data
yield 0 — the deterministic rendering of the C++ `ifstream` entering
its fail state, after which every subsequent `read` leaves its
zero-initialised destination untouched. -/
def readVarintAux (data : List Nat) : Nat → Nat → Nat → Nat → Nat × Nat
  | 0, pos, _, acc => (acc, pos)
  | f + 1, pos, shift, acc =>
    let b := nth data pos
    let acc' := acc ||| (((b &&& 0x7F) <<< shift) &&& 0xFFFFFFFF)
    if b &&& 0x80 == 0 then (acc', pos + 1)
    else readVarintAux data f (pos + 1) (shift + 7) acc'

/-- Varint read at `pos`, returning (value, next position). -/
def readVarint (data : List Nat) (pos : Nat) : Nat × Nat :=
  readVarintAux data (data.length + 1) pos 0 0

/-- Little-endian 16-bit read. -/
def readU16 (data : List Nat) (pos : Nat) : Nat :=
  nth data pos + 256 * nth data (pos + 1)

/-- Little-endian 32-bit read. -/
def readU32 (data : List Nat) (pos : Nat) : Nat :=
  nth data pos + 256 * nth data (pos + 1) + 65536 * nth data (pos + 2) +
    16777216 * nth data (pos + 3)

/-- Record-reading loop of `try_load_binary_format`: for each of the
`n` declared entries read `varint key_length | key | varint
value_length | value`.  `std::string key(key_len, '\0')` pre-fills
with NULs, so a read truncated by end-of-data leaves zero bytes. -/
def readRecords (data : List Nat) : Nat → Nat → List (List Nat × List Nat)
  | 0, _ => []
  | n + 1, pos =>
    let kl := readVarint data pos
    let availK := (data.drop kl.2).take kl.1
    let key := availK ++ List.replicate (kl.1 - availK.length) 0
    let vl := readVarint data (kl.2 + kl.1)
    let availV := (data.drop vl.2).take vl.1
    let value := availV ++ List.replicate (vl.1 - availV.length) 0
    (key, value) :: readRecords data n (vl.2 + vl.1)

/-- Loader `PhonemeConverter::try_load_binary_format` on an in-memory byte
string: `none` models `return false` (bad magic `JPHO` or version ≠
1.0); `some entries` models `return true` with the key/value pairs
that were inserted into the trie.  The source performs no bounds
check on the records, so truncated data still yields `some`. -/
def tryLoadBinaryFormat (data : List Nat) : Option (List (List Nat × List Nat)) :=
  if [nth data 0, nth data 1, nth data 2, nth data 3] = [0x4A, 0x50, 0x48, 0x4F] then
    if readU16 data 4 = 1 ∧ readU16 data 6 = 0 then
      some (readRecords data (readU32 data 8) 12)
    else none
  else none

/-- Reconstruction of one segment for the furigana reconstruction law:
a hint contributes `surface 「 reading 」`, plain text contributes
itself. -/
def reconSeg : Segment → List Nat
  | Segment.plain t => t
  | Segment.hint s r => s ++ 0x300C :: (r ++ [0x300D])

/-- Reconstruction of a whole segment list. -/
def reconstruct (segs : List Segment) : List Nat := (segs.map reconSeg).flatten

/-- Hypothesis predicate for the amended reconstruction law: every
`「…」` pair the scanner visits encloses a reading that is non-empty
and carries no leading/trailing ASCII whitespace (so the trim is the
identity and no hint is dropped). -/
def goodLoop : Nat → List Nat → Bool
  | 0, _ => true
  | fuel + 1, cs =>
    match findCp 0x300C cs with
    | none => true
    | some o =>
      match findCp 0x300D (cs.drop (o + 1)) with
      | none => true
      | some crel =>
        let reading := (cs.drop (o + 1)).take crel
        !reading.isEmpty && (trimWs reading == reading) &&
          goodLoop fuel (cs.drop (o + 1 + crel + 1))

/-- Predicate `goodLoop` with the same fuel `parseFurigana` uses. -/
def goodInput (cs : List Nat) : Bool := goodLoop (cs.length + 1) cs

/-- Phoneme trie mapping は to the byte "X" — a deliberately wrong
value, to exhibit that the particle override ignores the trie. -/
def trieHaX : Trie := .node none [(0x306F, .node (some [0x58]) [])]

/-- Word trie containing only the word て (empty-string marker). -/
def wordTrieTe : Trie := .node none [(0x3066, .node (some []) [])]

/-- Phoneme trie with keys `a` ↦ "x" and `ab` ↦ "y". -/
def trieAB : Trie :=
  .node none [(0x61, .node (some [0x78]) [(0x62, .node (some [0x79]) [])])]

/-- The empty trie. -/
def emptyTrie : Trie := .node none []

/-- 健太「けんた」て as decoded code points. -/
def kentaInput : List Nat :=
  [0x5065, 0x592A, 0x300C, 0x3051, 0x3093, 0x305F, 0x300D, 0x3066]

/-- A `JPHO` file with valid magic, version 1.0 and a declared entry
count of 2, but only one record (`"a" ↦ "b"`) present: the second
record overruns the end of the data. -/
def truncatedJpho : List Nat :=
  [0x4A, 0x50, 0x48, 0x4F, 1, 0, 0, 0, 2, 0, 0, 0, 1, 0x61, 1, 0x62]

/-! ### Lemmas about the trie walk -/

theorem walkAux_eq (cs : List Nat) : ∀ (t : Trie) (best : Option (Nat × List Nat)) (k : Nat),
    walkAux t best k cs = match bestMatch t cs with
      | some p => some (p.1 + k, p.2)
      | none => best := by
  induction cs with
  | nil => intro t best k; simp [walkAux, bestMatch]
  | cons c rest ih =>
    intro t best k
    simp only [walkAux, bestMatch]
    cases h : t.child c with
    | none => simp
    | some t' =>
      dsimp only
      cases hv : t'.value with
      | none =>
        dsimp only
        rw [ih t' best (k + 1)]
        cases hb : bestMatch t' rest with
        | none => simp [hv]
        | some p => simp [Nat.add_assoc, Nat.add_comm 1 k]
      | some v =>
        dsimp only
        rw [ih t' (some (k + 1, v)) (k + 1)]
        cases hb : bestMatch t' rest with
        | none => simp [hv, Nat.add_comm 1 k]
        | some p => simp [Nat.add_assoc, Nat.add_comm 1 k]

theorem walkLongest_eq_bestMatch (t : Trie) (cs : List Nat) :
    walkLongest t cs = bestMatch t cs := by
  rw [walkLongest, walkAux_eq]
  cases bestMatch t cs <;> simp

theorem bestMatch_pos {t : Trie} {cs : List Nat} {p : Nat × List Nat}
    (h : bestMatch t cs = some p) : 1 ≤ p.1 := by
  induction cs generalizing t p with
  | nil => simp [bestMatch] at h
  | cons c rest ih =>
    simp only [bestMatch] at h
    cases hc : t.child c with
    | none => rw [hc] at h; simp at h
    | some t' =>
      rw [hc] at h
      dsimp only at h
      cases hb : bestMatch t' rest with
      | none =>
        rw [hb] at h
        cases hv : t'.value with
        | none => rw [hv] at h; simp at h
        | some v => rw [hv] at h; simp at h; subst h; simp
      | some q => rw [hb] at h; simp at h; subst h; simp

theorem bestMatch_le_length {t : Trie} {cs : List Nat} {p : Nat × List Nat}
    (h : bestMatch t cs = some p) : p.1 ≤ cs.length := by
  induction cs generalizing t p with
  | nil => simp [bestMatch] at h
  | cons c rest ih =>
    simp only [bestMatch] at h
    cases hc : t.child c with
    | none => rw [hc] at h; simp at h
    | some t' =>
      rw [hc] at h
      dsimp only at h
      cases hb : bestMatch t' rest with
      | none =>
        rw [hb] at h
        cases hv : t'.value with
        | none => rw [hv] at h; simp at h
        | some v => rw [hv] at h; simp at h; subst h; simp
      | some q =>
        rw [hb] at h
        have hle := ih hb
        simp at h
        subst h
        simp only [List.length_cons]
        omega

theorem bestMatch_pathValue {t : Trie} {cs : List Nat} {n : Nat} {v : List Nat}
    (h : bestMatch t cs = some (n, v)) : pathValue t (cs.take n) = some v := by
  induction cs generalizing t n v with
  | nil => simp [bestMatch] at h
  | cons c rest ih =>
    simp only [bestMatch] at h
    cases hc : t.child c with
    | none => rw [hc] at h; simp at h
    | some t' =>
      rw [hc] at h
      dsimp only at h
      cases hb : bestMatch t' rest with
      | none =>
        rw [hb] at h
        cases hv : t'.value with
        | none => rw [hv] at h; simp at h
        | some w =>
          rw [hv] at h
          simp at h
          obtain ⟨h1, h2⟩ := h
          subst h2
          rw [← h1]
          simp [pathValue, hc, hv]
      | some q =>
        obtain ⟨qn, qv⟩ := q
        rw [hb] at h
        simp at h
        obtain ⟨h1, h2⟩ := h
        subst h2
        have hrec := ih hb
        rw [← h1]
        simpa [pathValue, hc] using hrec

theorem bestMatch_none_pathValue {t : Trie} {cs : List Nat}
    (h : bestMatch t cs = none) :
    ∀ m, 1 ≤ m → m ≤ cs.length → pathValue t (cs.take m) = none := by
  induction cs generalizing t with
  | nil => intro m h1 h2; simp at h2; omega
  | cons c rest ih =>
    intro m h1 h2
    obtain ⟨m', rfl⟩ : ∃ m', m = m' + 1 := ⟨m - 1, by omega⟩
    simp only [bestMatch] at h
    cases hc : t.child c with
    | none => simp [pathValue, hc]
    | some t' =>
      rw [hc] at h
      dsimp only at h
      cases hb : bestMatch t' rest with
      | some q => rw [hb] at h; simp at h
      | none =>
        rw [hb] at h
        cases hv : t'.value with
        | some v => rw [hv] at h; simp at h
        | none =>
          simp only [List.take_succ_cons, pathValue, hc]
          cases m' with
          | zero => simpa [pathValue] using hv
          | succ k =>
            exact ih hb (k + 1) (by omega) (by simpa using h2)

theorem bestMatch_max {t : Trie} {cs : List Nat} {n : Nat} {v : List Nat}
    (h : bestMatch t cs = some (n, v)) :
    ∀ m, n < m → m ≤ cs.length → pathValue t (cs.take m) = none := by
  induction cs generalizing t n v with
  | nil => simp [bestMatch] at h
  | cons c rest ih =>
    intro m hm hml
    obtain ⟨m', rfl⟩ : ∃ m', m = m' + 1 := ⟨m - 1, by omega⟩
    simp only [bestMatch] at h
    cases hc : t.child c with
    | none => rw [hc] at h; simp at h
    | some t' =>
      rw [hc] at h
      dsimp only at h
      simp only [List.take_succ_cons, pathValue, hc]
      cases hb : bestMatch t' rest with
      | some q =>
        obtain ⟨qn, qv⟩ := q
        rw [hb] at h
        simp at h
        obtain ⟨h1, h2⟩ := h
        exact ih hb m' (by omega) (by simpa using hml)
      | none =>
        rw [hb] at h
        cases hv : t'.value with
        | none => rw [hv] at h; simp at h
        | some w =>
          rw [hv] at h
          simp at h
          obtain ⟨h1, h2⟩ := h
          exact bestMatch_none_pathValue hb m' (by omega) (by simpa using hml)

/-! ### Lemmas about the converter loop -/

theorem convLoop_congr (t : Trie) :
    ∀ f g cs, List.length cs < f → List.length cs < g →
      convLoop t f cs = convLoop t g cs := by
  intro f
  induction f with
  | zero => intro g cs hf; omega
  | succ f ih =>
    intro g cs hf hg
    obtain ⟨g', rfl⟩ : ∃ g', g = g' + 1 := ⟨g - 1, by omega⟩
    cases cs with
    | nil => simp [convLoop]
    | cons c rest =>
      simp only [convLoop]
      cases hw : walkLongest t (c :: rest) with
      | none =>
        rw [ih g' rest (by simpa using hf) (by simpa using hg)]
      | some p =>
        have hp : 1 ≤ p.1 := bestMatch_pos (walkLongest_eq_bestMatch t _ ▸ hw)
        have hlen : ((c :: rest).drop p.1).length < f := by
          simp only [List.length_drop, List.length_cons]
          simp only [List.length_cons] at hf
          omega
        have hlen' : ((c :: rest).drop p.1).length < g' := by
          simp only [List.length_drop, List.length_cons]
          simp only [List.length_cons] at hg
          omega
        dsimp only
        rw [ih g' _ hlen hlen']

theorem convertCps_match {t : Trie} {cs : List Nat} {p : Nat × List Nat}
    (h : walkLongest t cs = some p) :
    convertCps t cs = p.2 ++ convertCps t (cs.drop p.1) := by
  have hb : bestMatch t cs = some p := walkLongest_eq_bestMatch t cs ▸ h
  have hp : 1 ≤ p.1 := bestMatch_pos hb
  cases cs with
  | nil => simp [bestMatch] at hb
  | cons c rest =>
    show convLoop t ((c :: rest).length + 1) (c :: rest) = _
    simp only [convLoop, h]
    congr 1
    apply convLoop_congr
    · simp only [List.length_drop, List.length_cons]; omega
    · simp only [List.length_drop]; omega

theorem convertCps_unmatched {t : Trie} :
    ∀ {cs : List Nat}, (∀ c ∈ cs, t.child c = none) →
      convertCps t cs = encodeUtf8 cs := by
  intro cs
  induction cs with
  | nil => intro _; simp [convertCps, convLoop, encodeUtf8]
  | cons c rest ih =>
    intro h
    have hc : t.child c = none := h c (by simp)
    have hw : walkLongest t (c :: rest) = none := by
      simp [walkLongest, walkAux, hc]
    show convLoop t ((c :: rest).length + 1) (c :: rest) = _
    simp only [convLoop, hw]
    rw [convLoop_congr t ((c :: rest).length) (rest.length + 1) rest (by simp) (by simp)]
    rw [show convLoop t (rest.length + 1) rest = convertCps t rest from rfl]
    rw [ih (fun x hx => h x (by simp [hx]))]
    simp [encodeUtf8]

/-! ### Lemmas about the furigana scanner -/

theorem findCp_lt_length {x : Nat} {cs : List Nat} {o : Nat}
    (h : findCp x cs = some o) : o < cs.length := by
  induction cs generalizing o with
  | nil => simp [findCp] at h
  | cons c rest ih =>
    simp only [findCp] at h
    by_cases hc : (c == x) = true
    · rw [if_pos hc] at h
      simp at h
      simp only [List.length_cons]
      omega
    · rw [if_neg hc] at h
      cases hr : findCp x rest with
      | none => rw [hr] at h; simp at h
      | some o' =>
        rw [hr] at h
        simp at h
        have := ih hr
        simp only [List.length_cons]
        omega

theorem findCp_drop {x : Nat} {cs : List Nat} {o : Nat}
    (h : findCp x cs = some o) : cs.drop o = x :: cs.drop (o + 1) := by
  induction cs generalizing o with
  | nil => simp [findCp] at h
  | cons c rest ih =>
    simp only [findCp] at h
    by_cases hc : (c == x) = true
    · rw [if_pos hc] at h
      simp at h
      subst h
      simp at hc
      simp [hc]
    · rw [if_neg hc] at h
      cases hr : findCp x rest with
      | none => rw [hr] at h; simp at h
      | some o' =>
        rw [hr] at h
        simp at h
        subst h
        simpa using ih hr

theorem stripKanaBack_le (cs : List Nat) : ∀ k, stripKanaBack cs k ≤ k := by
  intro k
  induction k with
  | zero => simp [stripKanaBack]
  | succ k ih =>
    simp only [stripKanaBack]
    by_cases h : isKana (nth cs k) = true
    · rw [if_pos h]; omega
    · rw [if_neg h]

theorem lastKanji_le (cs : List Nat) (o : Nat) : lastKanji cs o ≤ o := by
  have hs := stripKanaBack_le cs o
  unfold lastKanji
  cases h : stripKanaBack cs o with
  | zero => simp
  | succ k =>
    dsimp only
    rw [h] at hs
    omega

theorem scanBack_le (cs : List Nat) :
    ∀ sp ws B, sp ≤ B → ws ≤ B → scanBack cs sp ws ≤ B := by
  intro sp
  induction sp with
  | zero => intro ws B _ h; simpa [scanBack] using h
  | succ sp ih =>
    intro ws B hsp hws
    simp only [scanBack]
    by_cases h1 : isJPunct (nth cs sp) = true
    · rw [if_pos h1]; omega
    · rw [if_neg h1]
      by_cases h2 : isAsciiStop (nth cs sp) = true
      · rw [if_pos h2]; omega
      · rw [if_neg h2]
        by_cases h3 : (isKana (nth cs sp) && !hasKanjiBefore cs sp) = true
        · rw [if_pos h3]; omega
        · rw [if_neg h3]
          exact ih sp B (by omega) (by omega)

theorem reconstruct_append (a b : List Segment) :
    reconstruct (a ++ b) = reconstruct a ++ reconstruct b := by
  simp [reconstruct]

theorem reconstruct_cons (s : Segment) (l : List Segment) :
    reconstruct (s :: l) = reconSeg s ++ reconstruct l := by
  simp [reconstruct]

theorem segSplit (cs : List Nat) (o crel ws : Nat)
    (hws : ws ≤ o)
    (ho : cs.drop o = 0x300C :: cs.drop (o + 1))
    (hc : (cs.drop (o + 1)).drop crel = 0x300D :: (cs.drop (o + 1)).drop (crel + 1)) :
    cs.take ws ++ ((cs.drop ws).take (o - ws) ++
      0x300C :: ((cs.drop (o + 1)).take crel ++
        0x300D :: (cs.drop (o + 1)).drop (crel + 1))) = cs := by
  have e2 : cs.take ws ++ (cs.drop ws).take (o - ws) = cs.take o := by
    rw [← List.take_add]
    congr 1
    omega
  rw [← List.append_assoc, e2, ← hc, List.take_append_drop, ← ho,
    List.take_append_drop]

theorem reconLead (cs : List Nat) (ws : Nat) :
    reconstruct (if 0 < ws then [Segment.plain (cs.take ws)] else []) = cs.take ws := by
  by_cases h : 0 < ws
  · simp [h, reconstruct, reconSeg]
  · have hz : ws = 0 := by omega
    simp [h, hz, reconstruct]

theorem reconLoop (fuel : Nat) :
    ∀ cs : List Nat, cs.length < fuel → goodLoop fuel cs = true →
      reconstruct (parseLoop none fuel cs) = cs := by
  induction fuel with
  | zero => intro cs h _; omega
  | succ f ih =>
    intro cs hlen hgood
    simp only [parseLoop, goodLoop] at hgood ⊢
    cases ho : findCp 0x300C cs with
    | none =>
      dsimp only
      by_cases hemp : cs.isEmpty = true
      · rw [if_pos hemp]
        have : cs = [] := by simpa using hemp
        simp [reconstruct, this]
      · rw [if_neg hemp]
        simp [reconstruct, reconSeg]
    | some o =>
      rw [ho] at hgood
      dsimp only at hgood ⊢
      cases hcrel : findCp 0x300D (cs.drop (o + 1)) with
      | none =>
        dsimp only
        simp [reconstruct, reconSeg]
      | some crel =>
        rw [hcrel] at hgood
        dsimp only at hgood ⊢
        simp only [Bool.and_eq_true, Bool.not_eq_true', beq_iff_eq] at hgood
        obtain ⟨⟨hne, htrim⟩, hrec⟩ := hgood
        rw [htrim, hne]
        simp only [Bool.false_eq_true, if_false]
        have holt := findCp_lt_length ho
        have hcrlt := findCp_lt_length hcrel
        have hdo := findCp_drop ho
        have hdc := findCp_drop hcrel
        have hws : scanBack cs (lastKanji cs o) (lastKanji cs o) ≤ o :=
          scanBack_le cs _ _ o (lastKanji_le cs o) (lastKanji_le cs o)
        have hlen2 : (cs.drop (o + 1 + crel + 1)).length < f := by
          simp only [List.length_drop] at hcrlt ⊢
          omega
        have ihtail := ih (cs.drop (o + 1 + crel + 1)) hlen2 hrec
        rw [reconstruct_append, reconstruct_cons, ihtail, reconLead]
        have htail : cs.drop (o + 1 + crel + 1) = (cs.drop (o + 1)).drop (crel + 1) := by
          rw [List.drop_drop]
          congr 1
        rw [htail]
        have hsplit := segSplit cs o crel
          (scanBack cs (lastKanji cs o) (lastKanji cs o)) hws hdo hdc
        simp only [reconSeg, List.append_assoc, List.cons_append,
          List.singleton_append] at hsplit ⊢
        exact hsplit

theorem dropWhileWs_eq_self {l : List Nat} (h : ∀ c ∈ l, isWs c = false) :
    l.dropWhile isWs = l := by
  cases l with
  | nil => rfl
  | cons a l => simp [List.dropWhile_cons, h a (by simp)]

theorem trimWs_eq_self {l : List Nat} (h : ∀ c ∈ l, isWs c = false) :
    trimWs l = l := by
  unfold trimWs
  rw [dropWhileWs_eq_self h]
  rw [dropWhileWs_eq_self (fun c hc => h c (by simpa using hc))]
  simp

theorem findCp_append_cons {x : Nat} {r l : List Nat}
    (h : ∀ c ∈ r, c ≠ x) : findCp x (r ++ x :: l) = some r.length := by
  induction r with
  | nil => simp [findCp]
  | cons c r' ih =>
    have hc : (c == x) = false := by
      simpa using h c (by simp)
    simp only [List.cons_append, findCp, hc, Bool.false_eq_true, if_false, List.append_eq]
    rw [ih (fun d hd => h d (by simp [hd]))]
    simp

theorem parseLoop_nil (wt : Option Trie) (f : Nat) : parseLoop wt f [] = [] := by
  cases f with
  | zero => rfl
  | succ f => simp [parseLoop, findCp]

/-- C3 (amended): a reading hint whose opening bracket has no surface
before it is NOT discarded: with the bracket at the very start of the
scan window and a non-empty whitespace-free reading, the parser emits
a `Hint` segment with empty surface that carries the reading. -/
theorem c3_amended (r : List Nat) (hne : r ≠ [])
    (h : ∀ c ∈ r, isWs c = false ∧ c ≠ 0x300C ∧ c ≠ 0x300D) :
    parseFurigana (0x300C :: (r ++ [0x300D])) none = [Segment.hint [] r] := by
  have hlen : (0x300C :: (r ++ [0x300D])).length = r.length + 2 := by simp
  unfold parseFurigana
  rw [hlen]
  simp only [parseLoop]
  rw [show findCp 0x300C (0x300C :: (r ++ [0x300D])) = some 0 from by simp [findCp]]
  dsimp only
  rw [show (0x300C :: (r ++ [0x300D])).drop (0 + 1) = r ++ [0x300D] from rfl]
  rw [findCp_append_cons (fun c hc => (h c hc).2.2)]
  dsimp only [lastKanji, stripKanaBack, scanBack]
  have htake : (r ++ [0x300D]).take r.length = r := List.take_left r [0x300D]
  rw [htake, trimWs_eq_self (fun c hc => (h c hc).1)]
  have hre : r.isEmpty = false := by
    cases r with
    | nil => exact absurd rfl hne
    | cons a l => rfl
  rw [hre]
  simp only [Bool.false_eq_true, if_false, Nat.lt_irrefl, Nat.sub_self,
    List.take_zero, List.drop_zero, List.nil_append]
  have hdrop : (0x300C :: (r ++ [0x300D])).drop (0 + 1 + r.length + 1) = [] := by
    apply List.drop_eq_nil_of_le
    simp only [List.length_cons, List.length_append, List.length_nil]
    omega
  rw [hdrop]
  simp [findCp]

/-- C3: counterexample to the claim as stated.  On input 「よ」 (opening
bracket at the very start, so no surface exists) the parser does NOT
discard the hint: it emits a `Hint` segment with empty surface that
carries the reading よ. -/
theorem c3_counterexample :
    parseFurigana [0x300C, 0x3088, 0x300D] none = [Segment.hint [] [0x3088]] ∧
    Segment.hint [] [0x3088] ∈ parseFurigana [0x300C, 0x3088, 0x300D] none := by
  decide

/-- C3 (amended) witness at the concrete reading よ. -/
theorem c3_amended_witness :
    ([0x3088] : List Nat) ≠ [] ∧
    (∀ c ∈ ([0x3088] : List Nat), isWs c = false ∧ c ≠ 0x300C ∧ c ≠ 0x300D) ∧
    parseFurigana (0x300C :: ([0x3088] ++ [0x300D])) none = [Segment.hint [] [0x3088]] :=
  ⟨by decide, by decide, c3_amended [0x3088] (by decide) (by decide)⟩

/-- C1: every token produced by the word segmenter that is exactly the
single code point は (U+306F) is emitted as "wa", independently of the
value the phoneme trie stores for は; the whole segmented conversion is
the space-join of the per-token emissions. -/
theorem c1_particle_wa (pt wt : Trie) (text w : List Nat)
    (_hmem : w ∈ wordsWithSegmentation pt wt text) (hw : w = [0x306F]) :
    tokenPhoneme pt w = [0x77, 0x61] ∧
      convertWithSegmentationCps pt wt text =
        joinSpace ((wordsWithSegmentation pt wt text).map (tokenPhoneme pt)) := by
  constructor
  · rw [hw]
    simp [tokenPhoneme]
  · rfl

/-- C1 witness: the phoneme trie maps は to "X", yet the emitted
phoneme for the token は is "wa". -/
theorem c1_particle_wa_witness :
    pathValue trieHaX [0x306F] = some [0x58] ∧
    [0x306F] ∈ wordsWithSegmentation trieHaX emptyTrie [0x306F] ∧
    (tokenPhoneme trieHaX [0x306F] = [0x77, 0x61] ∧
      convertWithSegmentationCps trieHaX emptyTrie [0x306F] =
        joinSpace ((wordsWithSegmentation trieHaX emptyTrie [0x306F]).map (tokenPhoneme trieHaX))) :=
  ⟨by decide, by decide,
    c1_particle_wa trieHaX emptyTrie [0x306F] [0x306F] (by decide) rfl⟩

/-- C2: on 健太「けんた」て with a word trie holding only て, the
surface walk stops at the missing root child but the override still
fires from the partial node, emitting the single Plain segment
けんたて even though neither 健太て nor 健太 is in the dictionary. -/
theorem c2_partial_walk_eval :
    parseFurigana kentaInput (some wordTrieTe) =
      [Segment.plain [0x3051, 0x3093, 0x305F, 0x3066]] ∧
    pathValue wordTrieTe [0x5065, 0x592A, 0x3066] = none ∧
    pathValue wordTrieTe [0x5065] = none := by
  decide

/-- C4: counterexample to the reconstruction law as stated.  On 男「 」
(whitespace-only reading) the hint is skipped together with its
surface and brackets, so the parse is empty and reconstruction yields
[] instead of the input. -/
theorem c4_counterexample :
    parseFurigana [0x7537, 0x300C, 0x20, 0x300D] none = [] ∧
    reconstruct (parseFurigana [0x7537, 0x300C, 0x20, 0x300D] none) ≠
      [0x7537, 0x300C, 0x20, 0x300D] := by
  decide

/-- C4 (amended): when no word trie is supplied and every bracket pair
the scanner visits encloses a reading that is non-empty with no
leading/trailing ASCII whitespace, concatenating Hint surfaces with
「reading」 and Plain texts reproduces the input exactly. -/
theorem c4_amended (cs : List Nat) (h : goodInput cs = true) :
    reconstruct (parseFurigana cs none) = cs :=
  reconLoop (cs.length + 1) cs (by omega) h

/-- C4 (amended) witness on 男「み」. -/
theorem c4_amended_witness :
    goodInput [0x7537, 0x300C, 0x307F, 0x300D] = true ∧
    reconstruct (parseFurigana [0x7537, 0x300C, 0x307F, 0x300D] none) =
      [0x7537, 0x300C, 0x307F, 0x300D] :=
  ⟨by decide, c4_amended [0x7537, 0x300C, 0x307F, 0x300D] (by decide)⟩

/-- C5: at any position where some trie key of length n ≥ 1 is a prefix
of the remaining input, the converter emits the value of the longest
valued prefix L (no longer prefix carries a value) and continues after
exactly L code points. -/
theorem c5_longest_match (t : Trie) (cs : List Nat) (n : Nat)
    (h1 : 1 ≤ n) (h2 : n ≤ cs.length) (h3 : (pathValue t (cs.take n)).isSome = true) :
    ∃ L v, n ≤ L ∧ pathValue t (cs.take L) = some v ∧
      (∀ m, L < m → m ≤ cs.length → pathValue t (cs.take m) = none) ∧
      convertCps t cs = v ++ convertCps t (cs.drop L) := by
  cases hb : bestMatch t cs with
  | none =>
    exfalso
    rw [bestMatch_none_pathValue hb n h1 h2] at h3
    simp at h3
  | some p =>
    obtain ⟨L, v⟩ := p
    refine ⟨L, v, ?_, bestMatch_pathValue hb, bestMatch_max hb, ?_⟩
    · by_contra hlt
      push_neg at hlt
      rw [bestMatch_max hb n hlt h2] at h3
      simp at h3
    · exact convertCps_match (by rw [walkLongest_eq_bestMatch, hb])

/-- C5 witness on the trie {a ↦ "x", ab ↦ "y"} and input "abc". -/
theorem c5_longest_match_witness :
    (pathValue trieAB (List.take 1 [0x61, 0x62, 0x63])).isSome = true ∧
    ∃ L v, 1 ≤ L ∧ pathValue trieAB (List.take L [0x61, 0x62, 0x63]) = some v ∧
      (∀ m, L < m → m ≤ (3 : Nat) → pathValue trieAB (List.take m [0x61, 0x62, 0x63]) = none) ∧
      convertCps trieAB [0x61, 0x62, 0x63] = v ++ convertCps trieAB (List.drop L [0x61, 0x62, 0x63]) :=
  ⟨by decide, c5_longest_match trieAB [0x61, 0x62, 0x63] 1 (by decide) (by decide) (by decide)⟩

/-- C6: counterexample to pass-through as stated.  The single malformed
byte 0x80 decodes to the pseudo-scalar 0x80, which is absent from the
(empty) trie, yet the output is its two-byte re-encoding C2 80, not
the input. -/
theorem c6_counterexample :
    (∀ c ∈ decodeUtf8 [0x80], Trie.child emptyTrie c = none) ∧
    convertBytes emptyTrie [0x80] = [0xC2, 0x80] ∧
    convertBytes emptyTrie [0x80] ≠ [0x80] := by
  decide

/-- C6 (amended): when no decoded code point of the input starts a key
of the phoneme trie, the output is the UTF-8 re-encoding of the
decoded code points; in particular the output equals the input
whenever the input re-encodes to itself (well-formed UTF-8). -/
theorem c6_amended (t : Trie) (bytes : List Nat)
    (h : ∀ c ∈ decodeUtf8 bytes, t.child c = none) :
    convertBytes t bytes = encodeUtf8 (decodeUtf8 bytes) ∧
      (encodeUtf8 (decodeUtf8 bytes) = bytes → convertBytes t bytes = bytes) := by
  have h1 : convertCps t (decodeUtf8 bytes) = encodeUtf8 (decodeUtf8 bytes) :=
    convertCps_unmatched h
  exact ⟨h1, fun h2 => by rw [convertBytes, h1, h2]⟩

/-- C6 (amended) witness on the well-formed input あ (E3 81 82). -/
theorem c6_amended_witness :
    (∀ c ∈ decodeUtf8 [0xE3, 0x81, 0x82], Trie.child emptyTrie c = none) ∧
    (convertBytes emptyTrie [0xE3, 0x81, 0x82] = encodeUtf8 (decodeUtf8 [0xE3, 0x81, 0x82]) ∧
      (encodeUtf8 (decodeUtf8 [0xE3, 0x81, 0x82]) = [0xE3, 0x81, 0x82] →
        convertBytes emptyTrie [0xE3, 0x81, 0x82] = [0xE3, 0x81, 0x82])) :=
  ⟨by decide, c6_amended emptyTrie [0xE3, 0x81, 0x82] (by decide)⟩

/-- C7: the loader rejects bad magic and bad version, but performs no
overrun check: on `truncatedJpho` (declared count 2, only one record
present) it "succeeds", returning the real record plus a zero-filled
ghost entry instead of failing with a distinct error. -/
theorem c7_loader_eval :
    tryLoadBinaryFormat truncatedJpho = some [([0x61], [0x62]), ([], [])] ∧
    tryLoadBinaryFormat [0x4A, 0x50, 0x48, 0x50] = none ∧
    tryLoadBinaryFormat [0x4A, 0x50, 0x48, 0x4F, 2, 0, 0, 0, 0, 0, 0, 0] = none := by
  decide

/-- C8: counterexample to "reports the required size".  Two failing
calls whose conversion results need different sizes produce identical
caller-visible outcomes (return value, buffer, error string), so the
outcome cannot report the required size. -/
theorem c8_counterexample :
    jpnPhonemeConvert (some emptyTrie) none false [0x61] [] =
      jpnPhonemeConvert (some emptyTrie) none false [0x61, 0x61] [] ∧
    (conversionResult emptyTrie none false [0x61]).length ≠
      (conversionResult emptyTrie none false [0x61, 0x61]).length := by
  decide

/-- C8 (amended): whenever the caller's buffer cannot hold the
conversion result plus its NUL terminator, the entry point fails
recoverably with return value -1 and the distinct fixed message
"Output buffer too small"; the required size is not part of the
outcome. -/
theorem c8_amended (t : Trie) (wt : Option Trie) (useSeg : Bool) (text buf : List Nat)
    (h : buf.length ≤ (conversionResult t wt useSeg text).length) :
    jpnPhonemeConvert (some t) wt useSeg text buf = (-1, buf, "Output buffer too small") := by
  simp only [jpnPhonemeConvert]
  rw [if_pos h]

/-- C8 (amended) witness: empty buffer, one-byte result. -/
theorem c8_amended_witness :
    ([] : List Nat).length ≤ (conversionResult emptyTrie none false [0x61]).length ∧
    jpnPhonemeConvert (some emptyTrie) none false [0x61] [] =
      (-1, ([] : List Nat), "Output buffer too small") :=
  ⟨by decide, c8_amended emptyTrie none false [0x61] [] (by decide)⟩

/-- C9: after loading (argument `some k` = the count of entries/words
actually inserted), the counters return the hard-coded placeholders
240000 and 200000, not the loaded counts. -/
theorem c9_placeholder_eval :
    jpnPhonemeGetEntryCount (some 2) = 240000 ∧
    jpnPhonemeGetWordCount (some 3) = 200000 ∧
    jpnPhonemeGetEntryCount (some 2) ≠ 2 ∧
    jpnPhonemeGetWordCount (some 3) ≠ 3 := by
  decide

/-- C10: whenever `jpn_phoneme_convert` returns a non-negative n, the
converter was initialized, n is the conversion result's length and is
strictly below the buffer capacity, the first n buffer bytes are
exactly the result, and byte n is a NUL terminator. -/
theorem c10_success_contract (conv wt : Option Trie) (useSeg : Bool)
    (text buf : List Nat) (n : Int)
    (hret : (jpnPhonemeConvert conv wt useSeg text buf).1 = n) (hn : 0 ≤ n) :
    ∃ t, conv = some t ∧
      n.toNat < buf.length ∧
      n.toNat = (conversionResult t wt useSeg text).length ∧
      ((jpnPhonemeConvert conv wt useSeg text buf).2.1).take n.toNat =
        conversionResult t wt useSeg text ∧
      ((jpnPhonemeConvert conv wt useSeg text buf).2.1)[n.toNat]? = some 0 := by
  cases conv with
  | none =>
    simp [jpnPhonemeConvert] at hret
    omega
  | some t =>
    refine ⟨t, rfl, ?_⟩
    simp only [jpnPhonemeConvert] at hret ⊢
    by_cases h : buf.length ≤ (conversionResult t wt useSeg text).length
    · rw [if_pos h] at hret
      simp at hret
      omega
    · rw [if_neg h] at hret ⊢
      simp at hret
      have hnn : n.toNat = (conversionResult t wt useSeg text).length := by omega
      refine ⟨by omega, hnn, ?_, ?_⟩
      · rw [hnn]
        exact List.take_left _ _
      · rw [hnn]
        rw [List.getElem?_append_right (by omega)]
        simp

/-- C10 witness: empty trie, text "a", capacity 3; returns 1 with the
buffer [61, 00, 07]. -/
theorem c10_success_contract_witness :
    (jpnPhonemeConvert (some emptyTrie) none false [0x61] [7, 7, 7]).1 = 1 ∧
    (0 : Int) ≤ 1 ∧
    ∃ t, (some emptyTrie : Option Trie) = some t ∧
      (1 : Int).toNat < ([7, 7, 7] : List Nat).length ∧
      (1 : Int).toNat = (conversionResult t none false [0x61]).length ∧
      ((jpnPhonemeConvert (some emptyTrie) none false [0x61] [7, 7, 7]).2.1).take (1 : Int).toNat =
        conversionResult t none false [0x61] ∧
      ((jpnPhonemeConvert (some emptyTrie) none false [0x61] [7, 7, 7]).2.1)[(1 : Int).toNat]? = some 0 :=
  ⟨by decide, by decide,
    c10_success_contract (some emptyTrie) none false [0x61] [7, 7, 7] 1 (by decide) (by decide)⟩
